import Mathlib

/-!
# Verification of the DevFlow worktree-topology and server-status core

A shallow embedding of the algorithmic core of `devflow.py`:

* the porcelain-listing parse loop of `WorktreeManager.get_worktrees`
  (lines 56-73), including the record-separator handling and the
  `'refs/heads/'` replacement on branch lines;
* the metadata pass (lines 76-93: display name, current-directory flag,
  sidecar context) and the parent/child inference pass (lines 95-107);
* the tree walk of `DevFlowTUI.create_worktree_tree` and
  `DevFlowTUI._add_children_to_tree` (root detection, resolution of child
  names back to records, recursive flattening);
* `MCPServerManager.get_status` (lines 178-212): pid-file reading,
  liveness probing and best-effort stale-file cleanup.

Strings are modelled as `String` with path arithmetic done on `.data`
(lists of characters); filesystem and process state are explicit values
threaded through the functions.  The Python functions that shell out are
modelled from the point where the external command's stdout is in hand.
-/

namespace DevFlow

/-! ## Character-list utilities (models of Python `str` operations) -/

/-- Model of Python `str.strip()`'s whitespace test (ASCII whitespace). -/
def isPySpace (c : Char) : Bool :=
  c = ' ' || c = '\t' || c = '\n' || c = '\r' || c = '\x0B' || c = '\x0C'

/-- Model of Python `str.strip()` on a character list. -/
def stripChars (l : List Char) : List Char :=
  ((l.dropWhile isPySpace).reverse.dropWhile isPySpace).reverse

/-- Model of Python `str.split(sep)` (single-character separator):
`splitChar sep l` splits `l` at every occurrence of `sep`, keeping empty
pieces, and yields `[[]]` on empty input, exactly like Python. -/
def splitChar (sep : Char) : List Char → List (List Char)
  | [] => [[]]
  | c :: cs =>
    match splitChar sep cs with
    | [] => if c = sep then [[], []] else [[c]]
    | h :: t => if c = sep then [] :: h :: t else (c :: h) :: t

/-- Boolean "is an initial segment of" check on character lists; used to
model Python `str.startswith`. -/
def listPre : List Char → List Char → Bool
  | [], _ => true
  | _ :: _, [] => false
  | a :: as, b :: bs => a = b && listPre as bs

/-- Model of Python `s.startswith(pre)`. -/
def pyStartsWith (s pre : String) : Bool :=
  listPre pre.data s.data

/-- Drop the first `n` characters of a string (Python `s[n:]`). -/
def strDropChars (s : String) (n : Nat) : String :=
  String.mk (s.data.drop n)

/-- Model of `result.stdout.strip().split('\n')` (lines 56). -/
def pyLines (s : String) : List String :=
  (splitChar '\n' (stripChars s.data)).map String.mk

/-- Fuelled worker for `stripRefsHeads`; each step consumes at least one
character, so any fuel at least the list's length gives the replacement
semantics (structural recursion keeps the definition kernel-reducible). -/
def stripRHAux : Nat → List Char → List Char
  | 0, l => l
  | _, [] => []
  | f+1, c :: cs =>
    if listPre ("refs/heads/".data) (c :: cs) then stripRHAux f (cs.drop 10)
    else c :: stripRHAux f cs

/-- Model of Python `v.replace('refs/heads/', '')` (line 64): removes
every non-overlapping occurrence of the pattern, scanning left to
right — not merely a leading occurrence. -/
def stripRefsHeads (l : List Char) : List Char :=
  stripRHAux l.length l

/-- Model of `pathlib.Path(p).name` for the canonical absolute paths the
listing command emits: the final nonempty `/`-separated component. -/
def pathName (p : String) : String :=
  String.mk (((splitChar '/' p.data).filter (fun l => l ≠ [])).getLastD [])

/-! ## Topology parse loop (`get_worktrees` lines 56-73) -/

/-- One accumulating record of the parse loop: the Python `current_wt`
dict.  A field is `none`/`false` when the corresponding key is absent. -/
structure RawWT where
  path? : Option String := none
  head? : Option String := none
  branch? : Option String := none
  detached : Bool := false
deriving Repr, DecidableEq

/-- Model of Python's truthiness test `if current_wt:` — the dict is
falsy exactly when no key has been set. -/
def RawWT.isEmptyRec (r : RawWT) : Bool :=
  r.path?.isNone && r.head?.isNone && r.branch?.isNone && !r.detached

/-- One iteration of the `for line in ...` parse loop (lines 57-70):
state is (records pushed so far, current accumulator). -/
def parseStep (st : List RawWT × RawWT) (line : String) : List RawWT × RawWT :=
  if pyStartsWith line "worktree " then
    ((if st.2.isEmptyRec then st.1 else st.1 ++ [st.2]),
     { path? := some (strDropChars line 9) })
  else if pyStartsWith line "HEAD " then
    (st.1, { st.2 with head? := some (strDropChars line 5) })
  else if pyStartsWith line "branch " then
    (st.1, { st.2 with branch? := some (String.mk (stripRefsHeads (line.data.drop 7))) })
  else if pyStartsWith line "detached" then
    (st.1, { st.2 with detached := true })
  else if line = "" then
    (if st.2.isEmptyRec then st else (st.1 ++ [st.2], {}))
  else st

/-- The whole parse loop plus the trailing `if current_wt:` push
(lines 56-73): raw listing lines to raw records. -/
def parseRaw (lines : List String) : List RawWT :=
  let st := lines.foldl parseStep ([], {})
  if st.2.isEmptyRec then st.1 else st.1 ++ [st.2]

/-! ## Metadata pass and forest builder (`get_worktrees` lines 76-107) -/

/-- The filesystem facts the metadata pass reads: whether the `.context`
sidecar directory exists under a path, and the issue id its first
`issue-*.md` file yields (lines 82-88). -/
structure FS where
  hasContextDir : String → Bool
  issueId : String → Option String

/-- A fully annotated worktree record: the Python dict after the
metadata pass and the children pass.  `children` holds display names,
as in the source. -/
structure WT where
  path : String
  head? : Option String
  branch? : Option String
  detached : Bool
  name : String
  isCurrent : Bool
  hasContext : Bool
  issue? : Option String
  children : List String
deriving Repr, DecidableEq

/-- The metadata pass for one record (lines 76-93).  Returns `none` when
the raw record has no `path` key: the Python code then raises `KeyError`
at `Path(wt['path'])`, which the enclosing `except Exception` handler
turns into an empty result for the whole call. -/
def mkWT (fs : FS) (rootDir cwd : String) (r : RawWT) : Option WT :=
  match r.path? with
  | none => none
  | some p =>
    some { path := p
           head? := r.head?
           branch? := r.branch?
           detached := r.detached
           name := if p = rootDir then "main" else pathName p
           isCurrent := p == cwd
           hasContext := fs.hasContextDir p
           issue? := if fs.hasContextDir p then fs.issueId p else none
           children := [] }

/-- The nesting test of lines 102-106: `child` is registered under
`parent` when its path equals `parent/worktrees/<its name>` or when its
path merely *starts with the string* `parent ++ "/worktrees"` (no
trailing separator) and differs from the parent's path. -/
def childCond (ppath cpath : String) : Bool :=
  (cpath == ppath ++ "/worktrees/" ++ pathName cpath)
  || (pyStartsWith cpath (ppath ++ "/worktrees") && cpath != ppath)

/-- The parent-child pass of lines 95-107: each record's `children` list
receives the display name of every record satisfying `childCond`, in
input order. -/
def addChildren (ws : List WT) : List WT :=
  ws.map (fun w =>
    { w with children := (ws.filter (fun c => childCond w.path c.path)).map (fun c => c.name) })

/-- `get_worktrees` from the point where the listing command's stdout is
available: parse, metadata pass, children pass.  A raw record without a
`path` key makes the metadata pass raise, and the catch-all handler
(lines 121-123) returns the empty list. -/
def getWorktreesFromText (fs : FS) (rootDir cwd : String) (stdout : String) : List WT :=
  match (parseRaw (pyLines stdout)).mapM (mkWT fs rootDir cwd) with
  | some ws => addChildren ws
  | none => []

/-! ## Tree walk (`create_worktree_tree`, `_add_children_to_tree`) -/

/-- Root detection of lines 288-303: a record is a root unless some
*other* record's path extended with `"/worktrees"` is a string prefix of
its path. -/
def isRootWt (ws : List WT) (w : WT) : Bool :=
  !(ws.any (fun o => decide (o ≠ w) && pyStartsWith w.path (o.path ++ "/worktrees")))

/-- The root records, in input order (lines 287-303). -/
def forestRoots (ws : List WT) : List WT :=
  ws.filter (isRootWt ws)

/-- Child-name resolution of line 322: the *first* record whose display
name matches. -/
def resolveName (ws : List WT) (n : String) : Option WT :=
  ws.find? (fun w => w.name == n)

/-- The records `_add_children_to_tree` recurses into from a node:
each name in `children`, resolved by `resolveName`, unresolvable names
skipped. -/
def childrenWTs (ws : List WT) (w : WT) : List WT :=
  w.children.filterMap (resolveName ws)

/-- The multiset of records the recursive walk of
`_add_children_to_tree` places under (and including) `w`, fuelled: the
Python recursion has no depth bound, so `fuel` must dominate the true
recursion depth for the model to agree with it.  On every input whose
walk terminates, any sufficiently large fuel yields the walk's output. -/
def flattenFrom (ws : List WT) : Nat → WT → List WT
  | 0, w => [w]
  | fuel+1, w => w :: ((childrenWTs ws w).map (flattenFrom ws fuel)).flatten

/-- All records placed in the rendered tree, root by root. -/
def flattenForest (ws : List WT) (fuel : Nat) : List WT :=
  ((forestRoots ws).map (flattenFrom ws fuel)).flatten

/-- One parent-to-child edge of the rendered tree. -/
def childStep (ws : List WT) (p c : WT) : Prop :=
  c ∈ childrenWTs ws p

/-- `strictDesc ws a b`: the walk reaches `b` strictly below `a`. -/
def strictDesc (ws : List WT) : WT → WT → Prop :=
  Relation.TransGen (childStep ws)

/-! ## Liveness tracker (`MCPServerManager.get_status`, lines 178-212) -/

/-- ASCII digit test (the digits `int()` accepts for decimal input). -/
def isDig (c : Char) : Bool :=
  '0' ≤ c && c ≤ '9'

/-- No two consecutive underscores (Python `int()` rejects `"1__2"`). -/
def noDoubleUnd : List Char → Bool
  | [] => true
  | [_] => true
  | a :: b :: t => !(a = '_' && b = '_') && noDoubleUnd (b :: t)

/-- Decimal value of a digit list. -/
def digitsVal (l : List Char) : Nat :=
  l.foldl (fun a c => a * 10 + (c.toNat - 48)) 0

/-- Unsigned part of Python `int(s)`: nonempty, ASCII digits with single
underscores strictly between digits. -/
def intCore? (l : List Char) : Option Nat :=
  match l with
  | [] => none
  | c :: _ =>
    if isDig c
        && (match l.getLast? with | some d => isDig d | none => false)
        && l.all (fun d => isDig d || d = '_')
        && noDoubleUnd l
    then some (digitsVal (l.filter isDig)) else none

/-- Model of Python `int(s)` on already-stripped text: `none` models the
`ValueError` the code catches at line 207. -/
def pyInt? (s : String) : Option Int :=
  match s.data with
  | '+' :: rest => (intCore? rest).map (fun n => (n : Int))
  | '-' :: rest => (intCore? rest).map (fun n => -(n : Int))
  | _ => (intCore? s.data).map (fun n => (n : Int))

/-- The state `get_status` reads and mutates: whether `.mcp/pids`
exists, the contents of `<server>.pid` files, the contents of every
other file (never touched), OS process liveness (`os.kill(pid, 0)`), and
whether an `unlink` on a given server's pid file would succeed. -/
structure MCPState where
  pidDirExists : Bool
  pidFile : String → Option String
  otherFile : String → Option String
  alive : Int → Bool
  unlinkOk : String → Bool

/-- The per-server body of the loop at lines 186-210, returning the
status string and the possibly-updated state (stale-file cleanup with
its failure swallowed, lines 202-205). -/
def statusOne (st : MCPState) (n : String) : String × MCPState :=
  match st.pidFile n with
  | none => ("not started", st)
  | some raw =>
    let content := String.mk (stripChars raw.data)
    if content = "" then ("stopped", st)
    else
      match pyInt? content with
      | none => ("stopped", st)
      | some pid =>
        if st.alive pid then ("running", st)
        else
          ("stopped",
           if st.unlinkOk n then
             { st with pidFile := fun m => if m = n then none else st.pidFile m }
           else st)

/-- The configured servers, in the dict's insertion order (lines 170-176). -/
def serverNames : List String :=
  ["context7", "playwright", "python", "sequential", "zen"]

/-- The loop of lines 186-210 over a list of server names, threading the
state and producing the status pairs in loop order. -/
def runServers : MCPState → List String → List (String × String) × MCPState
  | st, [] => ([], st)
  | st, n :: rest =>
    let r := statusOne st n
    let rest' := runServers r.2 rest
    ((n, r.1) :: rest'.1, rest'.2)

/-- `get_status` (lines 178-212): the not-configured short-circuit when
the pid directory is missing, otherwise the per-server loop. -/
def getStatus (st : MCPState) : List (String × String) × MCPState :=
  if st.pidDirExists then runServers st serverNames
  else (serverNames.map (fun n => (n, "not configured")), st)

/-! ## Concrete inputs used by the scenario theorems and counterexamples -/

/-- A trivial filesystem: no sidecar directories anywhere. -/
def fsNone : FS := ⟨fun _ => false, fun _ => none⟩

/-- Listing with a two-level nested chain `/a`, `/a/worktrees/b`,
`/a/worktrees/b/worktrees/c`. -/
def chainText : String :=
  "worktree /a\n\nworktree /a/worktrees/b\n\nworktree /a/worktrees/b/worktrees/c"

def chainWs : List WT := getWorktreesFromText fsNone "/r" "/r" chainText

/-- Listing with a sibling directory whose name merely begins with the
string `worktrees`. -/
def sibText : String := "worktree /repo\n\nworktree /repo/worktreesfoo"

def sibWs : List WT := getWorktreesFromText fsNone "/repo" "/repo" sibText

/-- Listing in which two records share the final path component `a`. -/
def loopText : String := "worktree /a\n\nworktree /a/worktrees/a"

def loopWs : List WT := getWorktreesFromText fsNone "/r" "/r" loopText

/-- The record the builder produces for `/a` in `loopText`. -/
def loopRoot : WT :=
  { path := "/a", head? := none, branch? := none, detached := false
    name := "a", isCurrent := false, hasContext := false, issue? := none
    children := ["a"] }

/-- The end-to-end listing text of the specification's scenario. -/
def scenText : String :=
  "worktree /repo\nHEAD abcd1234\nbranch refs/heads/main\n\nworktree /repo/worktrees/feat-x\nHEAD ef567890\nbranch refs/heads/feat/x"

def scenWs : List WT := getWorktreesFromText fsNone "/repo" "/repo" scenText

end DevFlow


namespace DevFlow

/-! ## Scenario theorem and counterexamples on concrete listings -/

/-- C7: parsing the scenario listing yields exactly the two records
`/repo` and `/repo/worktrees/feat-x`, and the built forest has exactly
one root (path `/repo`, display name `main`) with exactly one child
(display name `feat-x`, branch name `feat/x`). -/
theorem c7_end_to_end_scenario :
    scenWs.map (fun w => w.path) = ["/repo", "/repo/worktrees/feat-x"]
    ∧ (forestRoots scenWs).map (fun w => (w.path, w.name)) = [("/repo", "main")]
    ∧ (forestRoots scenWs).map (fun r => (childrenWTs scenWs r).map (fun c => (c.name, c.branch?)))
        = [[("feat-x", some "feat/x")]] := by
  decide

/-- C1 counterexample: on the three-record chain `/a`,
`/a/worktrees/b`, `/a/worktrees/b/worktrees/c` the record `c` satisfies
the nesting condition for both `/a` and `/a/worktrees/b`, so the walked
forest contains it twice while the input contains it once — flattening
does not reproduce the records. -/
theorem c1_counterexample :
    ((flattenForest chainWs 5).map (fun w => w.path)).count "/a/worktrees/b/worktrees/c" = 2
    ∧ (chainWs.map (fun w => w.path)).count "/a/worktrees/b/worktrees/c" = 1 := by
  decide

/-- C2 counterexample: on the same chain, the record
`/a/worktrees/b/worktrees/c` is appended to the children of *both*
`/a` and `/a/worktrees/b`; the builder performs no longest-matching-
path selection and the record gets two parents. -/
theorem c2_counterexample :
    (chainWs.filter (fun w => w.children.contains "c")).map (fun w => w.path)
      = ["/a", "/a/worktrees/b"] := by
  decide

/-- C3 counterexample: the sibling directory `/repo/worktreesfoo`,
whose name merely begins with the string `worktrees`, is made a child
of `/repo` by the builder (string-prefix test without a separator), and
it is not a root — the claim says it must appear as a root/sibling and
not as a child. -/
theorem c3_counterexample :
    (sibWs.filter (fun w => w.children.contains "worktreesfoo")).map (fun w => w.path)
      = ["/repo"]
    ∧ (forestRoots sibWs).map (fun w => w.path) = ["/repo"] := by
  decide

/-- C4 counterexample: with the two records `/a` and `/a/worktrees/a`
(shared final path component `a`), name resolution maps the child name
`a` back to the record `/a` itself, so the walk makes the root its own
child: a node is its own ancestor, and the recursion of
`_add_children_to_tree` does not terminate. -/
theorem c4_counterexample :
    loopRoot ∈ loopWs ∧ strictDesc loopWs loopRoot loopRoot :=
  ⟨by decide,
   Relation.TransGen.single (show loopRoot ∈ childrenWTs loopWs loopRoot by decide)⟩

/-- C5 counterexample: a `HEAD` line before any `worktree` line opens a
pathless record; the metadata pass raises on it and the catch-all
handler returns the empty list, although the listing contains the
well-formed record `/repo` — malformed content drops every record. -/
theorem c5_counterexample :
    getWorktreesFromText fsNone "/repo" "/repo" "HEAD deadbeef\nworktree /repo" = []
    ∧ (parseRaw (pyLines "HEAD deadbeef\nworktree /repo")).filterMap (fun r => r.path?)
        = ["/repo"] := by
  decide

/-- C8 counterexample: the branch value `refs/heads/a/refs/heads/b`
is stored as `a/b`: the non-prefix occurrence of `refs/heads/` is also
removed, while the claim requires it to be preserved
(`a/refs/heads/b`). -/
theorem c8_counterexample :
    (parseRaw (pyLines "worktree /r\nbranch refs/heads/a/refs/heads/b")).map (fun r => r.branch?)
      = [some "a/b"]
    ∧ ("a/b" : String) ≠ "a/refs/heads/b" := by
  decide

end DevFlow

namespace DevFlow

/-! ## Frame and congruence lemmas for the liveness tracker -/

theorem statusOne_snd_pidDir (st : MCPState) (n : String) :
    (statusOne st n).2.pidDirExists = st.pidDirExists := by
  unfold statusOne
  cases h : st.pidFile n
  · rfl
  · simp only [h]
    split
    · rfl
    · split
      · rfl
      · split
        · rfl
        · dsimp only
          split <;> rfl

theorem statusOne_snd_alive (st : MCPState) (n : String) :
    (statusOne st n).2.alive = st.alive := by
  unfold statusOne
  cases h : st.pidFile n
  · rfl
  · simp only [h]
    split
    · rfl
    · split
      · rfl
      · split
        · rfl
        · dsimp only
          split <;> rfl

theorem statusOne_snd_unlinkOk (st : MCPState) (n : String) :
    (statusOne st n).2.unlinkOk = st.unlinkOk := by
  unfold statusOne
  cases h : st.pidFile n
  · rfl
  · simp only [h]
    split
    · rfl
    · split
      · rfl
      · split
        · rfl
        · dsimp only
          split <;> rfl

theorem statusOne_snd_otherFile (st : MCPState) (n : String) :
    (statusOne st n).2.otherFile = st.otherFile := by
  unfold statusOne
  cases h : st.pidFile n
  · rfl
  · simp only [h]
    split
    · rfl
    · split
      · rfl
      · split
        · rfl
        · dsimp only
          split <;> rfl

theorem statusOne_snd_pidFile_ne (st : MCPState) (n m : String) (h : m ≠ n) :
    (statusOne st n).2.pidFile m = st.pidFile m := by
  unfold statusOne
  cases hf : st.pidFile n
  · rfl
  · simp only [hf]
    split
    · rfl
    · split
      · rfl
      · split
        · rfl
        · dsimp only
          split
          · simp [h]
          · rfl

theorem statusOne_fst_mem (st : MCPState) (n : String) :
    (statusOne st n).1 = "not started" ∨ (statusOne st n).1 = "stopped"
      ∨ (statusOne st n).1 = "running" := by
  unfold statusOne
  cases h : st.pidFile n
  · exact Or.inl rfl
  · simp only [h]
    split
    · exact Or.inr (Or.inl rfl)
    · split
      · exact Or.inr (Or.inl rfl)
      · split
        · exact Or.inr (Or.inr rfl)
        · exact Or.inr (Or.inl rfl)

theorem statusOne_fst_congr (st st' : MCPState) (n : String)
    (h1 : st.pidFile n = st'.pidFile n) (h2 : st.alive = st'.alive) :
    (statusOne st n).1 = (statusOne st' n).1 := by
  unfold statusOne
  rw [h1, h2]
  cases h : st'.pidFile n
  · rfl
  · simp only [h]
    split
    · rfl
    · split
      · rfl
      · split <;> rfl

theorem statusOne_snd_pidFile_self_congr (st st' : MCPState) (n : String)
    (h1 : st.pidFile n = st'.pidFile n) (h2 : st.alive = st'.alive)
    (h3 : st.unlinkOk n = st'.unlinkOk n) :
    (statusOne st n).2.pidFile n = (statusOne st' n).2.pidFile n := by
  unfold statusOne
  rw [h1, h2, h3]
  cases h : st'.pidFile n
  · simpa only [h] using h1
  · simp only [h]
    split
    · exact h1
    · split
      · exact h1
      · split
        · exact h1
        · dsimp only
          split
          · simp
          · exact h1

theorem statusOne_snd_pidFile_self_cases (st : MCPState) (n : String) :
    (statusOne st n).2.pidFile n = st.pidFile n
    ∨ (∃ raw pid, st.pidFile n = some raw
        ∧ pyInt? (String.mk (stripChars raw.data)) = some pid
        ∧ st.alive pid = false
        ∧ (statusOne st n).2.pidFile n = none) := by
  unfold statusOne
  cases h : st.pidFile n
  · exact Or.inl h
  · rename_i raw
    simp only [h]
    split
    · exact Or.inl h
    · split
      · exact Or.inl h
      · rename_i pid hpid
        split
        · exact Or.inl h
        · rename_i halive
          dsimp only
          split
          · exact Or.inr ⟨raw, pid, rfl, hpid, by simpa using halive, by simp⟩
          · exact Or.inl h

end DevFlow

namespace DevFlow

/-! ## Loop-level lemmas for the liveness tracker -/

theorem runServers_fst_keys (names : List String) (st : MCPState) :
    ((runServers st names).1).map Prod.fst = names := by
  induction names generalizing st with
  | nil => rfl
  | cons n rest ih => simp [runServers, ih]

theorem runServers_snd_pidDir (names : List String) (st : MCPState) :
    (runServers st names).2.pidDirExists = st.pidDirExists := by
  induction names generalizing st with
  | nil => rfl
  | cons n rest ih => simp [runServers, ih, statusOne_snd_pidDir]

theorem runServers_snd_alive (names : List String) (st : MCPState) :
    (runServers st names).2.alive = st.alive := by
  induction names generalizing st with
  | nil => rfl
  | cons n rest ih => simp [runServers, ih, statusOne_snd_alive]

theorem runServers_snd_otherFile (names : List String) (st : MCPState) :
    (runServers st names).2.otherFile = st.otherFile := by
  induction names generalizing st with
  | nil => rfl
  | cons n rest ih => simp [runServers, ih, statusOne_snd_otherFile]

theorem runServers_snd_pidFile_notmem (names : List String) (st : MCPState) (n : String)
    (h : n ∉ names) :
    (runServers st names).2.pidFile n = st.pidFile n := by
  induction names generalizing st with
  | nil => rfl
  | cons m rest ih =>
    simp only [List.mem_cons, not_or] at h
    simp only [runServers]
    rw [ih _ h.2, statusOne_snd_pidFile_ne _ _ _ h.1]

theorem runServers_values_mem (names : List String) (st : MCPState) :
    ∀ p ∈ (runServers st names).1,
      p.2 = "not started" ∨ p.2 = "stopped" ∨ p.2 = "running" := by
  induction names generalizing st with
  | nil => intro p hp; simp [runServers] at hp
  | cons n rest ih =>
    intro p hp
    simp only [runServers, List.mem_cons] at hp
    rcases hp with hp | hp
    · subst hp; exact statusOne_fst_mem st n
    · exact ih _ p hp

theorem runServers_lookup (names : List String) (st : MCPState) (n : String)
    (hnd : names.Nodup) (hm : n ∈ names) :
    ((runServers st names).1).lookup n = some (statusOne st n).1 := by
  induction names generalizing st with
  | nil => simp at hm
  | cons m rest ih =>
    rcases List.nodup_cons.mp hnd with ⟨hm1, hm2⟩
    simp only [runServers, List.lookup]
    by_cases hnm : n = m
    · subst hnm; simp
    · have hn : n ∈ rest := by
        rcases List.mem_cons.mp hm with h | h
        · exact absurd h hnm
        · exact h
      have hbe : (n == m) = false := by simpa using hnm
      simp only [hbe]
      rw [ih _ hm2 hn]
      exact congrArg some (statusOne_fst_congr ((statusOne st m).2) st n
        (statusOne_snd_pidFile_ne st m n hnm) (statusOne_snd_alive st m))

theorem runServers_pidFile_mem (names : List String) (st : MCPState) (n : String)
    (hnd : names.Nodup) (hm : n ∈ names) :
    (runServers st names).2.pidFile n = (statusOne st n).2.pidFile n := by
  induction names generalizing st with
  | nil => simp at hm
  | cons m rest ih =>
    rcases List.nodup_cons.mp hnd with ⟨hm1, hm2⟩
    simp only [runServers]
    by_cases hnm : n = m
    · subst hnm
      exact runServers_snd_pidFile_notmem rest _ n hm1
    · have hn : n ∈ rest := by
        rcases List.mem_cons.mp hm with h | h
        · exact absurd h hnm
        · exact h
      rw [ih _ hm2 hn]
      exact statusOne_snd_pidFile_self_congr _ st n
        (statusOne_snd_pidFile_ne st m n hnm) (statusOne_snd_alive st m)
        (by rw [statusOne_snd_unlinkOk])

theorem runServers_pidFile_frame (names : List String) (st : MCPState) (n : String) :
    (runServers st names).2.pidFile n = st.pidFile n
    ∨ (∃ raw pid, st.pidFile n = some raw
        ∧ pyInt? (String.mk (stripChars raw.data)) = some pid
        ∧ st.alive pid = false
        ∧ n ∈ names
        ∧ (runServers st names).2.pidFile n = none) := by
  induction names generalizing st with
  | nil => exact Or.inl rfl
  | cons m rest ih =>
    simp only [runServers]
    rcases ih ((statusOne st m).2) with h | ⟨raw, pid, hraw, hpid, hdead, hmem, hnone⟩
    · by_cases hnm : n = m
      · subst hnm
        rcases statusOne_snd_pidFile_self_cases st n with h1 | ⟨raw, pid, hraw, hpid, hdead, hnone⟩
        · exact Or.inl (h.trans h1)
        · exact Or.inr ⟨raw, pid, hraw, hpid, hdead, List.mem_cons_self _ _, h.trans hnone⟩
      · exact Or.inl (h.trans (statusOne_snd_pidFile_ne st m n hnm))
    · by_cases hnm : n = m
      · subst hnm
        rcases statusOne_snd_pidFile_self_cases st n with h1 | ⟨raw', pid', hraw', hpid', hdead', hnone'⟩
        · rw [h1] at hraw
          refine Or.inr ⟨raw, pid, hraw, hpid, ?_, List.mem_cons_self _ _, hnone⟩
          rw [statusOne_snd_alive] at hdead
          exact hdead
        · rw [hnone'] at hraw
          exact absurd hraw (by simp)
      · refine Or.inr ⟨raw, pid, ?_, hpid, ?_, List.mem_cons_of_mem _ hmem, hnone⟩
        · rw [← statusOne_snd_pidFile_ne st m n hnm]
          exact hraw
        · rw [statusOne_snd_alive] at hdead
          exact hdead

end DevFlow

namespace DevFlow

theorem statusOne_parsed (st : MCPState) (n : String) (raw : String) (pid : Int)
    (hfile : st.pidFile n = some raw)
    (hparse : pyInt? (String.mk (stripChars raw.data)) = some pid) :
    statusOne st n =
      (if st.alive pid then ("running", st)
       else ("stopped",
         if st.unlinkOk n then
           { st with pidFile := fun m => if m = n then none else st.pidFile m }
         else st)) := by
  have hcne : ¬(String.mk (stripChars raw.data) = "") := by
    intro he
    have h0 : pyInt? "" = none := by decide
    rw [he, h0] at hparse
    exact Option.noConfusion hparse
  unfold statusOne
  rw [hfile]
  dsimp only
  rw [if_neg hcne, hparse]

/-- C9: on every state, the status map's key list is exactly the
configured server names, and every value is one of `not configured`,
`not started`, `stopped`, `running` — in particular the tracker itself
never produces `unknown` (that string exists only as the display
layer's lookup default, line 342). -/
theorem c9_status_map_totality (st : MCPState) :
    ((getStatus st).1).map Prod.fst = serverNames
    ∧ ((getStatus st).1).all
        (fun p => p.2 == "not configured" || p.2 == "not started"
          || p.2 == "stopped" || p.2 == "running") = true := by
  unfold getStatus
  split
  · refine ⟨runServers_fst_keys serverNames st, ?_⟩
    rw [List.all_eq_true]
    intro p hp
    rcases runServers_values_mem serverNames st p hp with h | h | h <;> simp [h]
  · refine ⟨rfl, ?_⟩
    rw [List.all_eq_true]
    intro p hp
    simp only [List.mem_map] at hp
    rcases hp with ⟨nm, _, rfl⟩
    simp

/-- C10: one `get_status` call deletes at most the pid files whose
(stripped) content parses as an integer naming a dead process: every
other pid file — missing, live-process, empty or unparseable — keeps
its exact previous content, and files outside the pid directory are
untouched. -/
theorem c10_cleanup_only_dead_pid_files (st : MCPState) (n : String) :
    ((getStatus st).2.pidFile n = st.pidFile n
      ∨ ∃ raw pid, st.pidFile n = some raw
          ∧ pyInt? (String.mk (stripChars raw.data)) = some pid
          ∧ st.alive pid = false
          ∧ n ∈ serverNames
          ∧ (getStatus st).2.pidFile n = none)
    ∧ (getStatus st).2.otherFile = st.otherFile := by
  unfold getStatus
  split
  · exact ⟨runServers_pidFile_frame serverNames st n, runServers_snd_otherFile serverNames st⟩
  · exact ⟨Or.inl rfl, rfl⟩

/-- With the pid directory present, `get_status` is the per-server loop. -/
theorem getStatus_of_dir (st : MCPState) (h : st.pidDirExists = true) :
    getStatus st = runServers st serverNames := by
  unfold getStatus
  rw [h]
  simp

/-- C6: with the pid directory present and server `n`'s pid file
parsing to `pid`: if `pid` is alive the call reports `running`; if dead,
the call reports `stopped` and — when the unlink succeeds — deletes the
file, so that an immediately following call reports `not started`; a
failing unlink is swallowed and leaves both the reported status and the
file unchanged. -/
theorem c6_liveness_non_idempotence (st : MCPState) (n : String) (raw : String) (pid : Int)
    (hn : n ∈ serverNames) (hdir : st.pidDirExists = true)
    (hfile : st.pidFile n = some raw)
    (hparse : pyInt? (String.mk (stripChars raw.data)) = some pid) :
    (st.alive pid = true → ((getStatus st).1).lookup n = some "running")
    ∧ (st.alive pid = false →
        ((getStatus st).1).lookup n = some "stopped"
        ∧ (st.unlinkOk n = true →
            (getStatus st).2.pidFile n = none
            ∧ ((getStatus (getStatus st).2).1).lookup n = some "not started")
        ∧ (st.unlinkOk n = false → (getStatus st).2.pidFile n = st.pidFile n)) := by
  have hnd : serverNames.Nodup := by decide
  have hgs : getStatus st = runServers st serverNames := getStatus_of_dir st hdir
  have hlook : ((runServers st serverNames).1).lookup n = some (statusOne st n).1 :=
    runServers_lookup serverNames st n hnd hn
  have hpf : (runServers st serverNames).2.pidFile n = (statusOne st n).2.pidFile n :=
    runServers_pidFile_mem serverNames st n hnd hn
  have hso := statusOne_parsed st n raw pid hfile hparse
  constructor
  · intro ha
    rw [hgs, hlook, hso, if_pos ha]
  · intro ha
    rw [Bool.eq_false_iff] at ha
    refine ⟨?_, ?_, ?_⟩
    · rw [hgs, hlook, hso, if_neg ha]
    · intro hu
      have hdel : (statusOne st n).2.pidFile n = none := by
        rw [hso, if_neg ha]
        dsimp only
        rw [hu]
        simp
      have hfin : (getStatus st).2.pidFile n = none := by
        rw [hgs, hpf, hdel]
      refine ⟨hfin, ?_⟩
      have hdir2 : (getStatus st).2.pidDirExists = true := by
        rw [hgs, runServers_snd_pidDir, hdir]
      rw [getStatus_of_dir _ hdir2, runServers_lookup serverNames _ n hnd hn]
      unfold statusOne
      rw [hfin]
    · intro hu
      rw [hgs, hpf, hso, if_neg ha]
      dsimp only
      rw [hu]
      simp [hfile]

/-- Concrete state for the C6 witness: the `python` server's pid file
holds `4242`, no process is alive, unlinks succeed. -/
def stEx : MCPState :=
  { pidDirExists := true
    pidFile := fun m => if m = "python" then some "4242" else none
    otherFile := fun _ => none
    alive := fun _ => false
    unlinkOk := fun _ => true }

/-- C6 witness: instantiating the liveness theorem at `stEx` and server
`python`. -/
theorem c6_witness :
    ((getStatus stEx).1).lookup "python" = some "stopped"
    ∧ (getStatus stEx).2.pidFile "python" = none
    ∧ ((getStatus (getStatus stEx).2).1).lookup "python" = some "not started" := by
  have h := c6_liveness_non_idempotence stEx "python" "4242" 4242
    (by decide) rfl rfl (by decide)
  have h2 := h.2 rfl
  exact ⟨h2.1, (h2.2.1 rfl).1, (h2.2.1 rfl).2⟩

end DevFlow

namespace DevFlow

/-! ## Groundwork: facts about `listPre` and `childCond` -/

theorem listPre_iff_append (a b : List Char) :
    listPre a b = true ↔ ∃ t, a ++ t = b := by
  induction a generalizing b with
  | nil => simp [listPre]
  | cons x xs ih =>
    cases b with
    | nil =>
      simp only [listPre, Bool.false_eq_true, false_iff]
      rintro ⟨t, h⟩
      exact List.noConfusion h
    | cons y ys =>
      simp only [listPre, Bool.and_eq_true, decide_eq_true_eq]
      constructor
      · rintro ⟨rfl, h⟩
        rcases (ih ys).mp h with ⟨t, rfl⟩
        exact ⟨t, rfl⟩
      · rintro ⟨t, h⟩
        injection h with h1 h2
        subst h1
        exact ⟨rfl, (ih ys).mpr ⟨t, h2⟩⟩

theorem listPre_length_le (a b : List Char) (h : listPre a b = true) :
    a.length ≤ b.length := by
  rcases (listPre_iff_append a b).mp h with ⟨t, rfl⟩
  simp

theorem listPre_append_self (a t : List Char) : listPre a (a ++ t) = true :=
  (listPre_iff_append a (a ++ t)).mpr ⟨t, rfl⟩

theorem listPre_trans (a b c : List Char) (h1 : listPre a b = true)
    (h2 : listPre b c = true) : listPre a c = true := by
  rcases (listPre_iff_append a b).mp h1 with ⟨t, rfl⟩
  rcases (listPre_iff_append _ c).mp h2 with ⟨u, rfl⟩
  rw [List.append_assoc]
  exact listPre_append_self a (t ++ u)

theorem listPre_of_shorter (a b c : List Char) (h1 : listPre a c = true)
    (h2 : listPre b c = true) (hl : a.length ≤ b.length) :
    listPre a b = true := by
  rcases (listPre_iff_append a c).mp h1 with ⟨s, hs⟩
  rcases (listPre_iff_append b c).mp h2 with ⟨t, ht⟩
  have ha : a = c.take a.length := by
    rw [← hs, List.take_left]
  have hb : b = c.take b.length := by
    rw [← ht, List.take_left]
  have key : a = b.take a.length := by
    rw [hb, List.take_take, Nat.min_eq_left hl, ← ha]
  rw [key]
  exact (listPre_iff_append _ _).mpr ⟨b.drop a.length, List.take_append_drop _ _⟩

theorem listPre_antisymm (a b : List Char) (h1 : listPre a b = true)
    (h2 : a.length = b.length) : a = b := by
  rcases (listPre_iff_append a b).mp h1 with ⟨t, rfl⟩
  have : t = [] := by
    have := List.length_append a t
    rw [← h2] at this
    exact List.eq_nil_of_length_eq_zero (by omega)
  rw [this, List.append_nil]

theorem listPre_cancel_left (x u v : List Char) (h : listPre (x ++ u) (x ++ v) = true) :
    listPre u v = true := by
  rcases (listPre_iff_append _ _).mp h with ⟨t, ht⟩
  rw [List.append_assoc] at ht
  have := List.append_cancel_left ht
  exact (listPre_iff_append _ _).mpr ⟨t, this⟩

theorem childCond_iff (p c : String) :
    childCond p c = true ↔
      (c = p ++ "/worktrees/" ++ pathName c
        ∨ (pyStartsWith c (p ++ "/worktrees") = true ∧ c ≠ p)) := by
  unfold childCond
  simp [Bool.or_eq_true, Bool.and_eq_true]

theorem childCond_pre (p c : String) (h : childCond p c = true) :
    listPre (p.data ++ ("/worktrees" : String).data) c.data = true := by
  rcases (childCond_iff p c).mp h with h | ⟨h, _⟩
  · have hsplit : ("/worktrees/" : String) = "/worktrees" ++ "/" := rfl
    rw [h, hsplit]
    have : (p ++ ("/worktrees" ++ "/") ++ pathName c).data
        = (p.data ++ ("/worktrees" : String).data) ++ (("/" : String).data ++ (pathName c).data) := by
      simp [String.data_append, List.append_assoc]
    rw [this]
    exact listPre_append_self _ _
  · unfold pyStartsWith at h
    rwa [String.data_append] at h

theorem childCond_length (p c : String) (h : childCond p c = true) :
    p.data.length + 10 ≤ c.data.length := by
  have := listPre_length_le _ _ (childCond_pre p c h)
  have hwt : ("/worktrees" : String).data.length = 10 := by decide
  rw [List.length_append, hwt] at this
  exact this

theorem childCond_startsWith (p c : String) (h : childCond p c = true) :
    pyStartsWith c (p ++ "/worktrees") = true := by
  unfold pyStartsWith
  rw [String.data_append]
  exact childCond_pre p c h

theorem childCond_of_startsWith (p c : String)
    (h : pyStartsWith c (p ++ "/worktrees") = true) (hne : c ≠ p) :
    childCond p c = true :=
  (childCond_iff p c).mpr (Or.inr ⟨h, hne⟩)

theorem ne_of_childCond (p c : String) (h : childCond p c = true) : c ≠ p := by
  intro he
  have := childCond_length p c h
  rw [he] at this
  omega

theorem startsWith_length (p c : String)
    (h : pyStartsWith c (p ++ "/worktrees") = true) :
    p.data.length + 10 ≤ c.data.length := by
  unfold pyStartsWith at h
  rw [String.data_append] at h
  have := listPre_length_le _ _ h
  have hwt : ("/worktrees" : String).data.length = 10 := by decide
  rw [List.length_append, hwt] at this
  exact this

end DevFlow

namespace DevFlow

/-! ## The parent chain of a record under the nesting test -/

/-- The first record (in input order) whose path passes the nesting test
for `c`'s path; under the at-most-one-candidate hypothesis this is `c`'s
unique parent. -/
def parentOf (ws : List WT) (c : WT) : Option WT :=
  (ws.filter (fun p => childCond p.path c.path)).head?

theorem parentOf_spec (ws : List WT) (c p : WT) (h : parentOf ws c = some p) :
    p ∈ ws ∧ childCond p.path c.path = true := by
  unfold parentOf at h
  have hp : p ∈ ws.filter (fun p => childCond p.path c.path) := by
    rcases hl : ws.filter (fun p => childCond p.path c.path) with _ | ⟨a, t⟩ <;> rw [hl] at h
    · exact absurd h (by simp)
    · simp only [List.head?_cons, Option.some_inj] at h
      rw [hl, ← h]
      exact List.mem_cons_self _ _
  have := List.mem_filter.mp hp
  exact ⟨this.1, by simpa using this.2⟩

theorem parentOf_none_iff (ws : List WT) (c : WT) :
    parentOf ws c = none ↔ ∀ p ∈ ws, childCond p.path c.path = false := by
  unfold parentOf
  rw [List.head?_eq_none_iff, List.filter_eq_nil_iff]
  constructor
  · intro h p hp
    have := h p hp
    simpa using this
  · intro h p hp
    simp [h p hp]

theorem parentOf_eq (ws : List WT) (c w : WT)
    (hone : (ws.filter (fun p => childCond p.path c.path)).length ≤ 1)
    (hw : w ∈ ws) (hcc : childCond w.path c.path = true) :
    parentOf ws c = some w := by
  have hmem : w ∈ ws.filter (fun p => childCond p.path c.path) :=
    List.mem_filter.mpr ⟨hw, by simpa using hcc⟩
  unfold parentOf
  rcases hl : ws.filter (fun p => childCond p.path c.path) with _ | ⟨a, t⟩
  · rw [hl] at hmem
    exact absurd hmem (by simp)
  · rw [hl] at hmem hone ⊢
    cases t with
    | nil =>
      have : w = a := by simpa using hmem
      simp [this]
    | cons b t2 => simp at hone

/-- The chain of iterated parent candidates from `c` upward; finite
because each parent's path is at least ten characters shorter. -/
def chainUp (ws : List WT) (c : WT) : List WT :=
  match h : parentOf ws c with
  | none => [c]
  | some p => c :: chainUp ws p
termination_by c.path.data.length
decreasing_by
  have := childCond_length p.path c.path (parentOf_spec ws c p h).2
  omega

theorem chainUp_none (ws : List WT) (c : WT) (h : parentOf ws c = none) :
    chainUp ws c = [c] := by
  unfold chainUp
  split
  · rfl
  · rename_i p hp
    rw [h] at hp
    exact Option.noConfusion hp

theorem chainUp_some (ws : List WT) (c p : WT) (h : parentOf ws c = some p) :
    chainUp ws c = c :: chainUp ws p := by
  conv_lhs => unfold chainUp
  split
  · rename_i hn
    rw [h] at hn
    exact Option.noConfusion hn
  · rename_i q hq
    rw [h] at hq
    injection hq with hq
    rw [hq]

theorem mem_chainUp_self (ws : List WT) (c : WT) : c ∈ chainUp ws c := by
  rcases h : parentOf ws c with _ | p
  · rw [chainUp_none ws c h]
    exact List.mem_singleton.mpr rfl
  · rw [chainUp_some ws c p h]
    exact List.mem_cons_self _ _

theorem chainUp_length_le (ws : List WT) (c x : WT) (hx : x ∈ chainUp ws c) :
    x.path.data.length ≤ c.path.data.length := by
  rcases h : parentOf ws c with _ | p
  · rw [chainUp_none ws c h] at hx
    rw [List.mem_singleton.mp hx]
  · rw [chainUp_some ws c p h] at hx
    rcases List.mem_cons.mp hx with he | hx'
    · rw [he]
    · have hlt := childCond_length p.path c.path (parentOf_spec ws c p h).2
      have := chainUp_length_le ws p x hx'
      omega
termination_by c.path.data.length
decreasing_by
  have := childCond_length p.path c.path (parentOf_spec ws c p h).2
  omega

theorem chainUp_strict (ws : List WT) (c x : WT) (hx : x ∈ chainUp ws c)
    (hne : x ≠ c) : x.path.data.length + 10 ≤ c.path.data.length := by
  rcases h : parentOf ws c with _ | p
  · rw [chainUp_none ws c h] at hx
    exact absurd (List.mem_singleton.mp hx) hne
  · rw [chainUp_some ws c p h] at hx
    rcases List.mem_cons.mp hx with he | hx'
    · exact absurd he hne
    · have hlt := childCond_length p.path c.path (parentOf_spec ws c p h).2
      have := chainUp_length_le ws p x hx'
      omega

theorem chainUp_mem_ws (ws : List WT) (c x : WT) (hc : c ∈ ws)
    (hx : x ∈ chainUp ws c) : x ∈ ws := by
  rcases h : parentOf ws c with _ | p
  · rw [chainUp_none ws c h] at hx
    rw [List.mem_singleton.mp hx]
    exact hc
  · rw [chainUp_some ws c p h] at hx
    rcases List.mem_cons.mp hx with he | hx'
    · rw [he]; exact hc
    · exact chainUp_mem_ws ws p x (parentOf_spec ws c p h).1 hx'
termination_by c.path.data.length
decreasing_by
  have := childCond_length p.path c.path (parentOf_spec ws c p h).2
  omega

theorem chainUp_nodup (ws : List WT) (c : WT) : (chainUp ws c).Nodup := by
  rcases h : parentOf ws c with _ | p
  · rw [chainUp_none ws c h]
    exact List.nodup_singleton c
  · rw [chainUp_some ws c p h]
    refine List.nodup_cons.mpr ⟨?_, chainUp_nodup ws p⟩
    intro hmem
    have h1 := chainUp_length_le ws p c hmem
    have h2 := childCond_length p.path c.path (parentOf_spec ws c p h).2
    omega
termination_by c.path.data.length
decreasing_by
  have := childCond_length p.path c.path (parentOf_spec ws c p h).2
  omega

theorem chainUp_parent_closed (ws : List WT) (c x w : WT) (hx : x ∈ chainUp ws c)
    (hp : parentOf ws x = some w) : w ∈ chainUp ws c := by
  rcases h : parentOf ws c with _ | p
  · rw [chainUp_none ws c h] at hx
    rw [List.mem_singleton.mp hx] at hp
    rw [hp] at h
    exact Option.noConfusion h
  · rw [chainUp_some ws c p h]
    rw [chainUp_some ws c p h] at hx
    rcases List.mem_cons.mp hx with he | hx'
    · rw [he] at hp
      rw [hp] at h
      injection h with h
      rw [h]
      exact List.mem_cons_of_mem _ (mem_chainUp_self ws p)
    · exact List.mem_cons_of_mem _ (chainUp_parent_closed ws p x w hx' hp)
termination_by c.path.data.length
decreasing_by
  have := childCond_length p.path c.path (parentOf_spec ws c p h).2
  omega

end DevFlow

namespace DevFlow

/-! ## Roots are exactly the records with no parent candidate -/

theorem isRootWt_false_iff (ws : List WT) (c : WT) :
    isRootWt ws c = false ↔
      ∃ o ∈ ws, o ≠ c ∧ pyStartsWith c.path (o.path ++ "/worktrees") = true := by
  unfold isRootWt
  simp [List.any_eq_true]

theorem isRootWt_iff_no_parent (ws : List WT) (c : WT) :
    isRootWt ws c = true ↔ parentOf ws c = none := by
  rw [parentOf_none_iff]
  constructor
  · intro h p hp
    by_contra hcc
    rw [Bool.not_eq_false] at hcc
    have hsw := childCond_startsWith _ _ hcc
    have hne : p ≠ c := by
      intro he
      have := childCond_length p.path c.path hcc
      rw [he] at this
      omega
    have hfalse : isRootWt ws c = false := (isRootWt_false_iff ws c).mpr ⟨p, hp, hne, hsw⟩
    rw [h] at hfalse
    exact Bool.noConfusion hfalse
  · intro h
    by_contra hr
    rw [Bool.not_eq_true] at hr
    rcases (isRootWt_false_iff ws c).mp hr with ⟨o, ho, hne, hsw⟩
    have hpne : c.path ≠ o.path := by
      intro he
      have := startsWith_length o.path c.path hsw
      rw [he] at this
      omega
    have hcc := childCond_of_startsWith o.path c.path hsw hpne
    have hfo := h o ho
    rw [hcc] at hfo
    exact Bool.noConfusion hfo

theorem chainUp_countP_root (ws : List WT) (c : WT) :
    (chainUp ws c).countP (fun x => isRootWt ws x) = 1 := by
  rcases h : parentOf ws c with _ | p
  · rw [chainUp_none ws c h]
    have hr : isRootWt ws c = true := (isRootWt_iff_no_parent ws c).mpr h
    simp [List.countP_cons, hr]
  · rw [chainUp_some ws c p h]
    have hc : isRootWt ws c = false := by
      by_contra hr
      rw [Bool.not_eq_false] at hr
      rw [(isRootWt_iff_no_parent ws c).mp hr] at h
      exact Option.noConfusion h
    rw [List.countP_cons]
    simp [hc, chainUp_countP_root ws p]
termination_by c.path.data.length
decreasing_by
  have := childCond_length p.path c.path (parentOf_spec ws c p h).2
  omega

theorem chainUp_pred (ws : List WT) (c w : WT) (hw : w ∈ chainUp ws c) (hne : w ≠ c) :
    ∃ y, y ∈ chainUp ws c ∧ parentOf ws y = some w
      ∧ ∀ z, z ∈ chainUp ws c → parentOf ws z = some w → z = y := by
  rcases h : parentOf ws c with _ | p
  · rw [chainUp_none ws c h] at hw
    exact absurd (List.mem_singleton.mp hw) hne
  · rw [chainUp_some ws c p h] at hw
    rcases List.mem_cons.mp hw with he | hw'
    · exact absurd he hne
    · by_cases hwp : w = p
      · refine ⟨c, ?_, ?_, ?_⟩
        · exact mem_chainUp_self ws c
        · rw [h, hwp]
        · intro z hz hpz
          rw [chainUp_some ws c p h] at hz
          rcases List.mem_cons.mp hz with he | hz'
          · exact he
          · exfalso
            have h1 := chainUp_length_le ws p z hz'
            have h2 := childCond_length w.path z.path (parentOf_spec ws z w hpz).2
            rw [hwp] at h2
            omega
      · rcases chainUp_pred ws p w hw' hwp with ⟨y, hy, hpy, huniq⟩
        refine ⟨y, ?_, hpy, ?_⟩
        · rw [chainUp_some ws c p h]
          exact List.mem_cons_of_mem _ hy
        · intro z hz hpz
          rw [chainUp_some ws c p h] at hz
          rcases List.mem_cons.mp hz with he | hz'
          · exfalso
            rw [he] at hpz
            rw [h] at hpz
            injection hpz with hpz
            exact hwp hpz.symm
          · exact huniq z hz' hpz
termination_by c.path.data.length
decreasing_by
  have := childCond_length p.path c.path (parentOf_spec ws c p h).2
  omega

/-! ## Sum helpers -/

theorem sum_ite_zero (l : List WT) (P : WT → Prop) [DecidablePred P]
    (h : ∀ c ∈ l, ¬ P c) :
    (l.map (fun c => if P c then (1 : Nat) else 0)).sum = 0 := by
  induction l with
  | nil => rfl
  | cons a t ih =>
    simp only [List.map_cons, List.sum_cons]
    rw [if_neg (h a (List.mem_cons_self a t)), ih (fun c hc => h c (List.mem_cons_of_mem a hc))]

theorem sum_ite_one (l : List WT) (P : WT → Prop) [DecidablePred P] (c₀ : WT)
    (hnd : l.Nodup) (hmem : c₀ ∈ l) (h : ∀ c ∈ l, P c ↔ c = c₀) :
    (l.map (fun c => if P c then (1 : Nat) else 0)).sum = 1 := by
  induction l with
  | nil => exact absurd hmem (List.not_mem_nil c₀)
  | cons a t ih =>
    rcases List.nodup_cons.mp hnd with ⟨ha, ht⟩
    simp only [List.map_cons, List.sum_cons]
    rcases List.mem_cons.mp hmem with he | hmem'
    · rw [if_pos ((h a (List.mem_cons_self a t)).mpr he.symm)]
      rw [sum_ite_zero t P ?_]
      intro c hc hPc
      have := (h c (List.mem_cons_of_mem a hc)).mp hPc
      rw [this, he] at hc
      exact ha hc
    · rw [if_neg ?_, ih ht hmem' (fun c hc => h c (List.mem_cons_of_mem a hc))]
      intro hPa
      have := (h a (List.mem_cons_self a t)).mp hPa
      rw [this] at ha
      exact ha hmem'

theorem countP_eq_one_elim (l : List WT) (p : WT → Bool) (h : l.countP p = 1) :
    ∃ a, a ∈ l ∧ p a = true ∧ ∀ b ∈ l, p b = true → b = a := by
  induction l with
  | nil => simp at h
  | cons a t ih =>
    rw [List.countP_cons] at h
    by_cases hpa : p a = true
    · rw [if_pos hpa] at h
      have h0 : t.countP p = 0 := by omega
      have hall := List.countP_eq_zero.mp h0
      refine ⟨a, List.mem_cons_self a t, hpa, ?_⟩
      intro b hb hpb
      rcases List.mem_cons.mp hb with he | hb'
      · exact he
      · exact absurd hpb (hall b hb')
    · rw [if_neg hpa] at h
      simp only [Nat.add_zero] at h
      rcases ih h with ⟨a₀, ha₀, hpa₀, huniq⟩
      refine ⟨a₀, List.mem_cons_of_mem a ha₀, hpa₀, ?_⟩
      intro b hb hpb
      rcases List.mem_cons.mp hb with he | hb'
      · rw [he] at hpb
        exact absurd hpb hpa
      · exact huniq b hb' hpb

end DevFlow

namespace DevFlow

/-! ## Counting records in the fuelled walk -/

theorem count_flattenFrom (ws : List WT)
    (hnodup : ws.Nodup)
    (hres : ∀ w ∈ ws, childrenWTs ws w = ws.filter (fun c => childCond w.path c.path))
    (hone : ∀ c ∈ ws, (ws.filter (fun p => childCond p.path c.path)).length ≤ 1)
    (fuel : Nat) :
    ∀ w, w ∈ ws → ∀ x, x ∈ ws →
      x.path.data.length ≤ w.path.data.length + 10 * fuel →
      (flattenFrom ws fuel w).count x = if w ∈ chainUp ws x then 1 else 0 := by
  induction fuel with
  | zero =>
    intro w hw x hx hlen
    simp only [flattenFrom]
    rw [List.count_singleton']
    by_cases he : w = x
    · rw [if_pos he, if_pos (by rw [he]; exact mem_chainUp_self ws x)]
    · rw [if_neg he]
      by_cases hch : w ∈ chainUp ws x
      · exfalso
        have := chainUp_strict ws x w hch he
        omega
      · rw [if_neg hch]
  | succ fuel ih =>
    intro w hw x hx hlen
    simp only [flattenFrom]
    rw [List.count_cons, List.count_flatten, List.map_map]
    simp only [beq_iff_eq]
    rw [hres w hw]
    have hmap : (ws.filter (fun c => childCond w.path c.path)).map
          (List.count x ∘ flattenFrom ws fuel)
        = (ws.filter (fun c => childCond w.path c.path)).map
            (fun c => if c ∈ chainUp ws x then (1 : Nat) else 0) := by
      apply List.map_congr_left
      intro c hc
      have hcm := List.mem_filter.mp hc
      have hcc : childCond w.path c.path = true := by simpa using hcm.2
      have hclen := childCond_length w.path c.path hcc
      have := ih c hcm.1 x hx (by omega)
      simpa using this
    rw [hmap]
    by_cases hwx : w = x
    · subst hwx
      have hz : ((ws.filter (fun c => childCond w.path c.path)).map
          (fun c => if c ∈ chainUp ws w then (1 : Nat) else 0)).sum = 0 := by
        apply sum_ite_zero
        intro c hc hPc
        have hcm := List.mem_filter.mp hc
        have hcc : childCond w.path c.path = true := by simpa using hcm.2
        have h1 := childCond_length w.path c.path hcc
        have h2 := chainUp_length_le ws w c hPc
        omega
      rw [hz]
      simp [mem_chainUp_self]
    · rw [if_neg hwx]
      by_cases hch : w ∈ chainUp ws x
      · rw [if_pos hch]
        rcases chainUp_pred ws x w hch hwx with ⟨y, hy, hpy, huniq⟩
        have hyws : y ∈ ws := chainUp_mem_ws ws x y hx hy
        have hycc : childCond w.path y.path = true := (parentOf_spec ws y w hpy).2
        have hymem : y ∈ ws.filter (fun c => childCond w.path c.path) :=
          List.mem_filter.mpr ⟨hyws, by simpa using hycc⟩
        have hs1 : ((ws.filter (fun c => childCond w.path c.path)).map
            (fun c => if c ∈ chainUp ws x then (1 : Nat) else 0)).sum = 1 := by
          apply sum_ite_one _ _ y (hnodup.filter _) hymem
          intro c hc
          have hcm := List.mem_filter.mp hc
          have hcc : childCond w.path c.path = true := by simpa using hcm.2
          constructor
          · intro hcch
            exact huniq c hcch (parentOf_eq ws c w (hone c hcm.1) hw hcc)
          · intro he
            rw [he]
            exact hy
        rw [hs1]
      · rw [if_neg hch]
        have hz : ((ws.filter (fun c => childCond w.path c.path)).map
            (fun c => if c ∈ chainUp ws x then (1 : Nat) else 0)).sum = 0 := by
          apply sum_ite_zero
          intro c hc hPc
          have hcm := List.mem_filter.mp hc
          have hcc : childCond w.path c.path = true := by simpa using hcm.2
          exact hch (chainUp_parent_closed ws x c w hPc
            (parentOf_eq ws c w (hone c hcm.1) hw hcc))
        rw [hz]

end DevFlow

namespace DevFlow

theorem childrenWTs_subset (ws : List WT) (w c : WT) (hc : c ∈ childrenWTs ws w) :
    c ∈ ws := by
  unfold childrenWTs at hc
  rcases List.mem_filterMap.mp hc with ⟨n, _, hr⟩
  unfold resolveName at hr
  exact List.mem_of_find?_eq_some hr

theorem flattenFrom_subset (ws : List WT) (fuel : Nat) :
    ∀ w, w ∈ ws → ∀ y ∈ flattenFrom ws fuel w, y ∈ ws := by
  induction fuel with
  | zero =>
    intro w hw y hy
    simp only [flattenFrom] at hy
    rw [List.mem_singleton.mp hy]
    exact hw
  | succ fuel ih =>
    intro w hw y hy
    simp only [flattenFrom] at hy
    rcases List.mem_cons.mp hy with he | hy'
    · rw [he]; exact hw
    · rcases List.mem_flatten.mp hy' with ⟨l, hl, hyl⟩
      rcases List.mem_map.mp hl with ⟨c, hc, rfl⟩
      exact ih c (childrenWTs_subset ws w c hc) y hyl

theorem count_flattenForest (ws : List WT)
    (hnodup : ws.Nodup)
    (hres : ∀ w ∈ ws, childrenWTs ws w = ws.filter (fun c => childCond w.path c.path))
    (hone : ∀ c ∈ ws, (ws.filter (fun p => childCond p.path c.path)).length ≤ 1)
    (fuel : Nat) (hfuel : ∀ y ∈ ws, y.path.data.length ≤ 10 * fuel) :
    ∀ x, (flattenForest ws fuel).count x = ws.count x := by
  intro x
  by_cases hx : x ∈ ws
  · unfold flattenForest forestRoots
    rw [List.count_flatten, List.map_map]
    have hmap : (ws.filter (isRootWt ws)).map (List.count x ∘ flattenFrom ws fuel)
        = (ws.filter (isRootWt ws)).map (fun r => if r ∈ chainUp ws x then (1 : Nat) else 0) := by
      apply List.map_congr_left
      intro r hr
      have hrm := List.mem_filter.mp hr
      have hlen : x.path.data.length ≤ r.path.data.length + 10 * fuel := by
        have := hfuel x hx
        omega
      simpa using count_flattenFrom ws hnodup hres hone fuel r hrm.1 x hx hlen
    rw [hmap]
    rcases countP_eq_one_elim (chainUp ws x) (fun y => isRootWt ws y) (chainUp_countP_root ws x)
      with ⟨r₀, hr₀c, hr₀root, hr₀uniq⟩
    have hr₀ws : r₀ ∈ ws := chainUp_mem_ws ws x r₀ hx hr₀c
    have hr₀mem : r₀ ∈ ws.filter (isRootWt ws) :=
      List.mem_filter.mpr ⟨hr₀ws, by simpa using hr₀root⟩
    have hs1 : ((ws.filter (isRootWt ws)).map
        (fun r => if r ∈ chainUp ws x then (1 : Nat) else 0)).sum = 1 := by
      apply sum_ite_one _ _ r₀ (hnodup.filter _) hr₀mem
      intro r hr
      have hrm := List.mem_filter.mp hr
      constructor
      · intro hrc
        exact hr₀uniq r hrc (by simpa using hrm.2)
      · intro he
        rw [he]
        exact hr₀c
    rw [hs1, List.count_eq_one_of_mem hnodup hx]
  · have hnotin : x ∉ flattenForest ws fuel := by
      intro hmem
      unfold flattenForest at hmem
      rcases List.mem_flatten.mp hmem with ⟨l, hl, hxl⟩
      rcases List.mem_map.mp hl with ⟨r, hr, rfl⟩
      unfold forestRoots at hr
      exact hx (flattenFrom_subset ws fuel r (List.mem_filter.mp hr).1 x hxl)
    rw [List.count_eq_zero_of_not_mem hnotin, List.count_eq_zero_of_not_mem hx]

theorem flattenForest_perm (ws : List WT)
    (hnodup : ws.Nodup)
    (hres : ∀ w ∈ ws, childrenWTs ws w = ws.filter (fun c => childCond w.path c.path))
    (hone : ∀ c ∈ ws, (ws.filter (fun p => childCond p.path c.path)).length ≤ 1)
    (fuel : Nat) (hfuel : ∀ y ∈ ws, y.path.data.length ≤ 10 * fuel) :
    (flattenForest ws fuel).Perm ws :=
  List.perm_iff_count.mpr (count_flattenForest ws hnodup hres hone fuel hfuel)

/-! ## Transporting the hypotheses through `addChildren` -/

/-- The per-record update the children pass applies. -/
def withKids (base : List WT) (w : WT) : WT :=
  { w with children := (base.filter (fun c => childCond w.path c.path)).map (fun c => c.name) }

theorem addChildren_eq (base : List WT) : addChildren base = base.map (withKids base) := rfl

theorem filter_of_map (l : List WT) (g : WT → WT) (q : WT → Bool) :
    (l.map g).filter q = (l.filter (fun w => q (g w))).map g := by
  induction l with
  | nil => rfl
  | cons a t ih =>
    by_cases h : q (g a) = true
    · simp [List.filter_cons, h, ih]
    · simp [List.filter_cons, h, ih]

theorem resolveName_of_mem (ws : List WT) (y : WT)
    (hnames : (ws.map (fun w => w.name)).Nodup) (hy : y ∈ ws) :
    resolveName ws y.name = some y := by
  induction ws with
  | nil => exact absurd hy (List.not_mem_nil y)
  | cons a t ih =>
    simp only [List.map_cons, List.nodup_cons] at hnames
    unfold resolveName
    by_cases hay : a.name = y.name
    · rcases List.mem_cons.mp hy with he | hyt
      · rw [List.find?_cons_of_pos _ (by simp [hay])]
        rw [he]
      · exfalso
        apply hnames.1
        rw [hay]
        exact List.mem_map_of_mem _ hyt
    · rcases List.mem_cons.mp hy with he | hyt
      · rw [he] at hay
        exact absurd rfl hay
      · rw [List.find?_cons_of_neg _ (by simp [hay])]
        exact ih hnames.2 hyt

theorem addChildren_map_path (base : List WT) :
    (addChildren base).map (fun w => w.path) = base.map (fun w => w.path) := by
  rw [addChildren_eq, List.map_map]
  rfl

theorem addChildren_map_name (base : List WT) :
    (addChildren base).map (fun w => w.name) = base.map (fun w => w.name) := by
  rw [addChildren_eq, List.map_map]
  rfl

theorem addChildren_hres (base : List WT)
    (hnames : (base.map (fun w => w.name)).Nodup) :
    ∀ w' ∈ addChildren base,
      childrenWTs (addChildren base) w'
        = (addChildren base).filter (fun c => childCond w'.path c.path) := by
  intro w' hw'
  rw [addChildren_eq] at hw'
  rcases List.mem_map.mp hw' with ⟨w, hw, rfl⟩
  have hnames' : ((addChildren base).map (fun w => w.name)).Nodup := by
    rw [addChildren_map_name]
    exact hnames
  unfold childrenWTs
  have hchil : (withKids base w).children
      = (base.filter (fun c => childCond w.path c.path)).map (fun c => c.name) := rfl
  rw [hchil, List.filterMap_map]
  have hall : ∀ c ∈ base.filter (fun c => childCond w.path c.path),
      (resolveName (addChildren base) ∘ fun c => c.name) c = some (withKids base c) := by
    intro c hc
    have hcb : c ∈ base := (List.mem_filter.mp hc).1
    have hmem' : withKids base c ∈ addChildren base := by
      rw [addChildren_eq]
      exact List.mem_map_of_mem _ hcb
    exact resolveName_of_mem (addChildren base) (withKids base c) hnames' hmem'
  rw [List.filterMap_eq_map_iff_forall_eq_some.mpr hall]
  have hpath : ∀ c, childCond ((withKids base w).path) ((withKids base c).path)
      = childCond w.path c.path := fun c => rfl
  rw [addChildren_eq, filter_of_map]
  rfl

theorem addChildren_hone (base : List WT)
    (hone : ∀ c ∈ base, (base.filter (fun p => childCond p.path c.path)).length ≤ 1) :
    ∀ c ∈ addChildren base,
      ((addChildren base).filter (fun p => childCond p.path c.path)).length ≤ 1 := by
  intro c hc
  rw [addChildren_eq] at hc
  rcases List.mem_map.mp hc with ⟨c0, hc0, rfl⟩
  rw [addChildren_eq, filter_of_map, List.length_map]
  exact hone c0 hc0

theorem addChildren_hfuel (base : List WT) (fuel : Nat)
    (hfuel : ∀ y ∈ base, y.path.data.length ≤ 10 * fuel) :
    ∀ y ∈ addChildren base, y.path.data.length ≤ 10 * fuel := by
  intro y hy
  rw [addChildren_eq] at hy
  rcases List.mem_map.mp hy with ⟨y0, hy0, rfl⟩
  exact hfuel y0 hy0

end DevFlow

namespace DevFlow

/-! ## Descent in the rendered tree: length growth and the root above -/

theorem strictDesc_spec (ws : List WT)
    (hres : ∀ w ∈ ws, childrenWTs ws w = ws.filter (fun c => childCond w.path c.path))
    (a b : WT) (ha : a ∈ ws) (h : strictDesc ws a b) :
    b ∈ ws ∧ a.path.data.length + 10 ≤ b.path.data.length
      ∧ listPre (a.path.data ++ ("/worktrees" : String).data) b.path.data = true := by
  induction h with
  | single hstep =>
    rename_i b'
    have hmem : b' ∈ ws.filter (fun c => childCond a.path c.path) := by
      have h' : b' ∈ childrenWTs ws a := hstep
      rwa [hres a ha] at h'
    have hcc : childCond a.path b'.path = true := by
      simpa using (List.mem_filter.mp hmem).2
    exact ⟨(List.mem_filter.mp hmem).1, childCond_length _ _ hcc, childCond_pre _ _ hcc⟩
  | tail hab hbc ih =>
    rename_i b' c'
    obtain ⟨hbws, hblen, hbpre⟩ := ih
    have hmem : c' ∈ ws.filter (fun d => childCond b'.path d.path) := by
      have h' : c' ∈ childrenWTs ws b' := hbc
      rwa [hres b' hbws] at h'
    have hcc : childCond b'.path c'.path = true := by
      simpa using (List.mem_filter.mp hmem).2
    have hlen := childCond_length _ _ hcc
    have hpre := childCond_pre _ _ hcc
    refine ⟨(List.mem_filter.mp hmem).1, by omega, ?_⟩
    exact listPre_trans _ _ _ hbpre (listPre_trans _ _ _ (listPre_append_self _ _) hpre)

theorem root_reaches (ws : List WT)
    (hres : ∀ w ∈ ws, childrenWTs ws w = ws.filter (fun c => childCond w.path c.path))
    (x : WT) (hx : x ∈ ws) :
    ∃ r, r ∈ ws ∧ isRootWt ws r = true ∧ (r = x ∨ strictDesc ws r x) := by
  rcases h : parentOf ws x with _ | p
  · exact ⟨x, hx, (isRootWt_iff_no_parent ws x).mpr h, Or.inl rfl⟩
  · obtain ⟨hpws, hpcc⟩ := parentOf_spec ws x p h
    obtain ⟨r, hrws, hroot, hcase⟩ := root_reaches ws hres p hpws
    have hstep : childStep ws p x := by
      show x ∈ childrenWTs ws p
      rw [hres p hpws]
      exact List.mem_filter.mpr ⟨hx, by simpa using hpcc⟩
    rcases hcase with he | hdesc
    · refine ⟨r, hrws, hroot, Or.inr (Relation.TransGen.single ?_)⟩
      rw [he]
      exact hstep
    · exact ⟨r, hrws, hroot, Or.inr (hdesc.tail hstep)⟩
termination_by x.path.data.length
decreasing_by
  have := childCond_length p.path x.path (parentOf_spec ws x p h).2
  omega

theorem pre_root_le (ws : List WT) (a b : WT) (ha : a ∈ ws)
    (hrootb : isRootWt ws b = true)
    (hab : listPre (a.path.data ++ ("/worktrees" : String).data)
      (b.path.data ++ ("/worktrees" : String).data) = true) :
    a.path = b.path := by
  have hwt10 : ("/worktrees" : String).data.length = 10 := by decide
  have hlenab : a.path.data.length ≤ b.path.data.length := by
    have := listPre_length_le _ _ hab
    simp only [List.length_append, hwt10] at this
    omega
  by_cases heq : a.path.data.length = b.path.data.length
  · have hanti := listPre_antisymm _ _ hab (by simp only [List.length_append, hwt10, heq])
    have hdata : a.path.data = b.path.data := by
      have h1 := List.take_left a.path.data ("/worktrees" : String).data
      have h2 := List.take_left b.path.data ("/worktrees" : String).data
      rw [← h1, hanti, heq, h2]
    exact String.ext hdata
  · by_cases hfar : a.path.data.length + 10 ≤ b.path.data.length
    · exfalso
      have hpre : listPre (a.path.data ++ ("/worktrees" : String).data) b.path.data = true := by
        apply listPre_of_shorter _ _ (b.path.data ++ ("/worktrees" : String).data) hab
          (listPre_append_self _ _)
        simp only [List.length_append, hwt10]
        omega
      have hne : a ≠ b := by
        intro he
        exact heq (by rw [he])
      have hb : isRootWt ws b = false := by
        apply (isRootWt_false_iff ws b).mpr
        refine ⟨a, ha, hne, ?_⟩
        unfold pyStartsWith
        rw [String.data_append]
        exact hpre
      rw [hrootb] at hb
      exact Bool.noConfusion hb
    · exfalso
      have hd1 : 1 ≤ b.path.data.length - a.path.data.length := by omega
      have hd9 : b.path.data.length - a.path.data.length ≤ 9 := by omega
      have hpb_pre : listPre b.path.data
          (a.path.data ++ ("/worktrees" : String).data) = true := by
        apply listPre_of_shorter _ _ (b.path.data ++ ("/worktrees" : String).data)
          (listPre_append_self _ _) hab
        simp only [List.length_append, hwt10]
        omega
      have hbtake : b.path.data = a.path.data
          ++ ("/worktrees" : String).data.take (b.path.data.length - a.path.data.length) := by
        obtain ⟨u, hu⟩ := (listPre_iff_append _ _).mp hpb_pre
        have h0 : (a.path.data ++ ("/worktrees" : String).data).take b.path.data.length
            = b.path.data := by
          rw [← hu, List.take_left]
        calc b.path.data
            = (a.path.data ++ ("/worktrees" : String).data).take b.path.data.length := h0.symm
          _ = a.path.data.take b.path.data.length
              ++ ("/worktrees" : String).data.take (b.path.data.length - a.path.data.length) :=
            List.take_append_eq_append_take
          _ = a.path.data
              ++ ("/worktrees" : String).data.take (b.path.data.length - a.path.data.length) := by
            rw [List.take_of_length_le (by omega)]
      have hcan : listPre ("/worktrees" : String).data
          (("/worktrees" : String).data.take (b.path.data.length - a.path.data.length)
            ++ ("/worktrees" : String).data) = true := by
        apply listPre_cancel_left a.path.data
        rw [← List.append_assoc, ← hbtake]
        exact hab
      generalize hd : b.path.data.length - a.path.data.length = d at hcan hd1 hd9
      interval_cases d <;> exact absurd hcan (by decide)

end DevFlow

namespace DevFlow

theorem reach_eq (ws : List WT)
    (hpaths : (ws.map (fun w => w.path)).Nodup)
    (hres : ∀ w ∈ ws, childrenWTs ws w = ws.filter (fun c => childCond w.path c.path))
    (r1 r2 x : WT) (hr1 : r1 ∈ ws) (hr2 : r2 ∈ ws)
    (hroot1 : isRootWt ws r1 = true) (hroot2 : isRootWt ws r2 = true)
    (hc1 : r1 = x ∨ strictDesc ws r1 x) (hc2 : r2 = x ∨ strictDesc ws r2 x) :
    r1 = r2 := by
  have hpatheq : r1.path = r2.path → r1 = r2 :=
    fun hpe => List.inj_on_of_nodup_map hpaths hr1 hr2 hpe
  rcases hc1 with rfl | hd1
  · rcases hc2 with rfl | hd2
    · rfl
    · by_contra hne
      have hpre := (strictDesc_spec ws hres r2 r1 hr2 hd2).2.2
      have hb : isRootWt ws r1 = false := by
        apply (isRootWt_false_iff ws r1).mpr
        refine ⟨r2, hr2, fun he => hne he.symm, ?_⟩
        unfold pyStartsWith
        rw [String.data_append]
        exact hpre
      rw [hroot1] at hb
      exact Bool.noConfusion hb
  · rcases hc2 with rfl | hd2
    · by_contra hne
      have hpre := (strictDesc_spec ws hres r1 r2 hr1 hd1).2.2
      have hb : isRootWt ws r2 = false := by
        apply (isRootWt_false_iff ws r2).mpr
        refine ⟨r1, hr1, hne, ?_⟩
        unfold pyStartsWith
        rw [String.data_append]
        exact hpre
      rw [hroot2] at hb
      exact Bool.noConfusion hb
    · have hp1 := (strictDesc_spec ws hres r1 x hr1 hd1).2.2
      have hp2 := (strictDesc_spec ws hres r2 x hr2 hd2).2.2
      by_cases hle : (r1.path.data ++ ("/worktrees" : String).data).length
          ≤ (r2.path.data ++ ("/worktrees" : String).data).length
      · exact hpatheq (pre_root_le ws r1 r2 hr1 hroot2
          (listPre_of_shorter _ _ _ hp1 hp2 hle))
      · exact hpatheq (pre_root_le ws r2 r1 hr2 hroot1
          (listPre_of_shorter _ _ _ hp2 hp1 (by omega))).symm

/-! ## The amended forest claims -/

/-- C1 (amended): the claim as stated fails (see `c1_counterexample`,
where a doubly nested record is attached to two parents and appears
twice in the walked forest).  The completeness guarantee the code does
provide: for every record list with pairwise-distinct paths,
pairwise-distinct display names, and at most one qualifying parent per
record, walking the built forest reproduces the records' paths exactly,
with no drop and no duplication (any fuel dominating the walk's depth —
here bounded via path lengths — gives the Python recursion's output). -/
theorem c1_amended_completeness (base : List WT) (fuel : Nat)
    (hpaths : (base.map (fun w => w.path)).Nodup)
    (hnames : (base.map (fun w => w.name)).Nodup)
    (hone : ∀ c ∈ base, (base.filter (fun p => childCond p.path c.path)).length ≤ 1)
    (hfuel : ∀ y ∈ base, y.path.data.length ≤ 10 * fuel) :
    ((flattenForest (addChildren base) fuel).map (fun w => w.path)).Perm
      (base.map (fun w => w.path)) := by
  have hpaths' : ((addChildren base).map (fun w => w.path)).Nodup := by
    rw [addChildren_map_path]
    exact hpaths
  have hperm := flattenForest_perm (addChildren base) hpaths'.of_map
    (addChildren_hres base hnames) (addChildren_hone base hone) fuel
    (addChildren_hfuel base fuel hfuel)
  have hmapped := hperm.map (fun w => w.path)
  rw [addChildren_map_path] at hmapped
  exact hmapped

/-- C1 witness: the amended completeness theorem applied to the parsed
scenario records. -/
theorem c1_witness :
    (scenWs.map (fun w => w.path)).Nodup
    ∧ ((flattenForest (addChildren scenWs) 3).map (fun w => w.path)).Perm
        (scenWs.map (fun w => w.path)) :=
  ⟨by decide, c1_amended_completeness scenWs 3 (by decide) (by decide) (by decide) (by decide)⟩

/-- C2 (amended): the claim as stated fails (see `c2_counterexample`:
with overlapping nested paths a record is appended to the children of
*every* record whose path qualifies, so it can have several parents and
no longest-prefix selection takes place).  What the builder does
guarantee: every qualifying parent receives the child's name in its
children list, and the construction is a pure function of the input, so
it is stable across runs on identical input. -/
theorem c2_amended_all_parents (base : List WT) (p c : WT)
    (hp : p ∈ base) (hc : c ∈ base) (hcc : childCond p.path c.path = true) :
    ∃ p' ∈ addChildren base, p'.path = p.path ∧ c.name ∈ p'.children := by
  refine ⟨withKids base p, ?_, rfl, ?_⟩
  · rw [addChildren_eq]
    exact List.mem_map_of_mem _ hp
  · show c.name ∈ (base.filter (fun d => childCond p.path d.path)).map (fun d => d.name)
    exact List.mem_map_of_mem _ (List.mem_filter.mpr ⟨hc, by simpa using hcc⟩)

/-- C3 (amended): the claim's rule fails on the code (see
`c3_counterexample`: `/repo/worktreesfoo` becomes a child of `/repo`).
The rule the code implements: `c` is a child of `p` iff `c`'s path
equals `p.path/worktrees/<c's final component>` or `c`'s path has the
*string* `p.path ++ "/worktrees"` as a prefix (no separator required)
while differing from `p`'s path. -/
theorem c3_amended_nesting_rule (base : List WT) (p c : WT)
    (hp : p ∈ base) (hc : c ∈ base)
    (hnames : (base.map (fun w => w.name)).Nodup) :
    ∃ p' ∈ addChildren base, p'.path = p.path ∧
      (c.name ∈ p'.children ↔
        (c.path = p.path ++ "/worktrees/" ++ pathName c.path
          ∨ (pyStartsWith c.path (p.path ++ "/worktrees") = true ∧ c.path ≠ p.path))) := by
  refine ⟨withKids base p, ?_, rfl, ?_⟩
  · rw [addChildren_eq]
    exact List.mem_map_of_mem _ hp
  · rw [← childCond_iff]
    show c.name ∈ (base.filter (fun d => childCond p.path d.path)).map (fun d => d.name) ↔ _
    constructor
    · intro hmem
      rcases List.mem_map.mp hmem with ⟨d, hd, hdn⟩
      have hdb := (List.mem_filter.mp hd).1
      have hdc : d = c := List.inj_on_of_nodup_map hnames hdb hc hdn
      rw [← hdc]
      simpa using (List.mem_filter.mp hd).2
    · intro hcc
      exact List.mem_map_of_mem _ (List.mem_filter.mpr ⟨hc, by simpa using hcc⟩)

/-- C4 (amended): the claim as stated fails (see `c4_counterexample`:
with two records sharing the final path component, name resolution can
make a node its own child, the walk cycles and the record nested below
is reachable from no root).  With pairwise-distinct paths and display
names the walked structure is well-behaved: no node is its own strict
descendant, and every node is reachable from exactly one root of the
rendered forest. -/
theorem c4_amended_acyclicity (base : List WT)
    (hpaths : (base.map (fun w => w.path)).Nodup)
    (hnames : (base.map (fun w => w.name)).Nodup) :
    ∀ w ∈ addChildren base,
      ¬ strictDesc (addChildren base) w w
      ∧ ∃! r, r ∈ forestRoots (addChildren base)
          ∧ (r = w ∨ strictDesc (addChildren base) r w) := by
  have hres := addChildren_hres base hnames
  have hpaths' : ((addChildren base).map (fun w => w.path)).Nodup := by
    rw [addChildren_map_path]
    exact hpaths
  intro w hw
  constructor
  · intro hdesc
    have := (strictDesc_spec (addChildren base) hres w w hw hdesc).2.1
    omega
  · obtain ⟨r, hrws, hroot, hcase⟩ := root_reaches (addChildren base) hres w hw
    refine ⟨r, ⟨?_, hcase⟩, ?_⟩
    · unfold forestRoots
      exact List.mem_filter.mpr ⟨hrws, by simpa using hroot⟩
    · rintro r' ⟨hr'roots, hcase'⟩
      unfold forestRoots at hr'roots
      have hr'ws := (List.mem_filter.mp hr'roots).1
      have hr'root : isRootWt (addChildren base) r' = true := by
        simpa using (List.mem_filter.mp hr'roots).2
      exact reach_eq (addChildren base) hpaths' hres r' r w hr'ws hrws hr'root hroot hcase' hcase

/-- C4 witness: the amended acyclicity theorem applied to the parsed
scenario records. -/
theorem c4_witness :
    (scenWs.map (fun w => w.path)).Nodup
    ∧ ∀ w ∈ addChildren scenWs,
        ¬ strictDesc (addChildren scenWs) w w
        ∧ ∃! r, r ∈ forestRoots (addChildren scenWs)
            ∧ (r = w ∨ strictDesc (addChildren scenWs) r w) :=
  ⟨by decide, c4_amended_acyclicity scenWs (by decide) (by decide)⟩

/-- The parsed `/repo` record, for witnesses. -/
def pEx : WT :=
  { path := "/repo", head? := none, branch? := none, detached := false
    name := "main", isCurrent := false, hasContext := false, issue? := none
    children := [] }

/-- The parsed `/repo/worktrees/feat-x` record, for witnesses. -/
def cEx : WT :=
  { path := "/repo/worktrees/feat-x", head? := none, branch? := none, detached := false
    name := "feat-x", isCurrent := false, hasContext := false, issue? := none
    children := [] }

/-- The `/repo/worktreesfoo` sibling record, for witnesses. -/
def sEx : WT :=
  { path := "/repo/worktreesfoo", head? := none, branch? := none, detached := false
    name := "worktreesfoo", isCurrent := false, hasContext := false, issue? := none
    children := [] }

/-- C2 witness: the all-qualifying-parents theorem at a concrete pair. -/
theorem c2_witness :
    childCond pEx.path cEx.path = true
    ∧ ∃ p' ∈ addChildren [pEx, cEx], p'.path = pEx.path ∧ cEx.name ∈ p'.children :=
  ⟨by decide, c2_amended_all_parents [pEx, cEx] pEx cEx (by decide) (by decide) (by decide)⟩

/-- C3 witness: the nesting-rule characterization at the sibling whose
name merely begins with `worktrees`. -/
theorem c3_witness :
    (([pEx, sEx].map (fun w => w.name)).Nodup)
    ∧ ∃ p' ∈ addChildren [pEx, sEx], p'.path = pEx.path ∧
        (sEx.name ∈ p'.children ↔
          (sEx.path = pEx.path ++ "/worktrees/" ++ pathName sEx.path
            ∨ (pyStartsWith sEx.path (pEx.path ++ "/worktrees") = true ∧ sEx.path ≠ pEx.path))) :=
  ⟨by decide, c3_amended_nesting_rule [pEx, sEx] pEx sEx (by decide) (by decide) (by decide)⟩

end DevFlow

namespace DevFlow

/-! ## The amended parser claims -/

theorem mapM_mkWT (fs : FS) (root cwd : String) (l : List RawWT)
    (h : ∀ r ∈ l, r.path?.isSome = true) :
    ∃ ws, l.mapM (mkWT fs root cwd) = some ws
      ∧ ws.map (fun w => w.path) = l.filterMap (fun r => r.path?) := by
  induction l with
  | nil => exact ⟨[], rfl, rfl⟩
  | cons r t ih =>
    obtain ⟨ws, hws, hmap⟩ := ih (fun x hx => h x (List.mem_cons_of_mem _ hx))
    rcases hp : r.path? with _ | p
    · have hr := h r (List.mem_cons_self _ _)
      rw [hp] at hr
      simp at hr
    · refine ⟨{ path := p, head? := r.head?, branch? := r.branch?, detached := r.detached
                name := if p = root then "main" else pathName p, isCurrent := p == cwd
                hasContext := fs.hasContextDir p
                issue? := if fs.hasContextDir p then fs.issueId p else none
                children := [] } :: ws, ?_, ?_⟩
      · have hmk : mkWT fs root cwd r
            = some { path := p, head? := r.head?, branch? := r.branch?, detached := r.detached
                     name := if p = root then "main" else pathName p, isCurrent := p == cwd
                     hasContext := fs.hasContextDir p
                     issue? := if fs.hasContextDir p then fs.issueId p else none
                     children := [] } := by
          unfold mkWT
          rw [hp]
        rw [List.mapM_cons, hmk, hws]
        rfl
      · simp only [List.map_cons, List.filterMap_cons, hp, hmap]

/-- C5 (amended): the claim as stated fails (see `c5_counterexample`: a
`HEAD`/`branch`/`detached` line before any `worktree` line opens a
pathless record, the metadata pass raises and the caller receives the
empty list, dropping every well-formed record).  What does hold: the
call never raises to its caller, lines with unrecognized keys are
ignored without affecting any record, and whenever no dangling key line
occurs (every raw record carries a path) the call returns exactly the
parsed records' paths — no drop, no duplication, no reorder. -/
theorem c5_amended_malformed_lines (fs : FS) (root cwd text : String)
    (h : ∀ r ∈ parseRaw (pyLines text), r.path?.isSome = true) :
    ((getWorktreesFromText fs root cwd text).map (fun w => w.path)
        = (parseRaw (pyLines text)).filterMap (fun r => r.path?))
    ∧ (∀ st line, pyStartsWith line "worktree " = false →
        pyStartsWith line "HEAD " = false →
        pyStartsWith line "branch " = false →
        pyStartsWith line "detached" = false →
        line ≠ "" → parseStep st line = st) := by
  constructor
  · obtain ⟨ws, hws, hmap⟩ := mapM_mkWT fs root cwd (parseRaw (pyLines text)) h
    unfold getWorktreesFromText
    rw [hws]
    show (addChildren ws).map (fun w => w.path) = _
    rw [addChildren_map_path, hmap]
  · intro st line h1 h2 h3 h4 h5
    unfold parseStep
    simp [h1, h2, h3, h4, h5]

/-- C5 witness: a listing with one well-formed record and one
unrecognized-key line keeps the record. -/
theorem c5_witness :
    (∀ r ∈ parseRaw (pyLines "worktree /repo\nnonsense 42"), r.path?.isSome = true)
    ∧ (getWorktreesFromText fsNone "/repo" "/repo" "worktree /repo\nnonsense 42").map
          (fun w => w.path)
        = (parseRaw (pyLines "worktree /repo\nnonsense 42")).filterMap (fun r => r.path?) :=
  ⟨by decide,
   (c5_amended_malformed_lines fsNone "/repo" "/repo" "worktree /repo\nnonsense 42"
     (by decide)).1⟩

/-- Occurrence check: does `refs/heads/` occur anywhere in `l`? -/
def hasRH : List Char → Bool
  | [] => false
  | c :: cs => listPre ("refs/heads/".data) (c :: cs) || hasRH cs

theorem stripRHAux_id (f : Nat) (l : List Char) (hf : l.length ≤ f)
    (h : hasRH l = false) : stripRHAux f l = l := by
  induction f generalizing l with
  | zero =>
    cases l with
    | nil => rfl
    | cons c cs => simp at hf
  | succ f ih =>
    cases l with
    | nil => rfl
    | cons c cs =>
      have hor := h
      unfold hasRH at hor
      rw [Bool.or_eq_false_iff] at hor
      simp only [stripRHAux, hor.1]
      rw [ih cs (by simp at hf; omega) hor.2]
      simp

theorem stripRefsHeads_id (l : List Char) (h : hasRH l = false) :
    stripRefsHeads l = l :=
  stripRHAux_id l.length l (le_refl _) h

/-- C8 (amended): the claim as stated fails (see `c8_counterexample`: a
non-prefix occurrence of `refs/heads/` in the value is also removed,
because line 64 uses `str.replace`, which removes every occurrence).
The behaviour the parser implements: a branch line stores the value
with every occurrence of `refs/heads/` removed; on values with no
internal occurrence this coincides with prefix-stripping — the value is
kept verbatim when the prefix is absent, and only the leading prefix is
removed when it is present. -/
theorem c8_amended_branch_replace_all (acc : List RawWT) (cur : RawWT) (v : String) :
    ((parseStep (acc, cur) ("branch " ++ v)).2.branch?
        = some (String.mk (stripRefsHeads v.data)))
    ∧ (∀ l : List Char, hasRH l = false → stripRefsHeads l = l)
    ∧ (∀ l : List Char, hasRH l = false →
        stripRefsHeads ("refs/heads/".data ++ l) = l) := by
  refine ⟨?_, fun l h => stripRefsHeads_id l h, ?_⟩
  · have h1 : pyStartsWith ("branch " ++ v) "worktree " = false := by
      unfold pyStartsWith
      rw [String.data_append]
      rfl
    have h2 : pyStartsWith ("branch " ++ v) "HEAD " = false := by
      unfold pyStartsWith
      rw [String.data_append]
      rfl
    have h3 : pyStartsWith ("branch " ++ v) "branch " = true := by
      unfold pyStartsWith
      rw [String.data_append]
      exact listPre_append_self _ _
    have hdrop : ("branch " ++ v).data.drop 7 = v.data := by
      rw [String.data_append]
      have h7 : ("branch " : String).data.length = 7 := rfl
      rw [← h7, List.drop_left]
    unfold parseStep
    simp only [h1, h2, h3, Bool.false_eq_true, if_false, if_true, hdrop]
  · intro l h
    have hcons : "refs/heads/".data ++ l = 'r' :: ("efs/heads/".data ++ l) := rfl
    have hlen : ("refs/heads/".data ++ l).length = (l.length + 10) + 1 := by
      simp [List.length_append]
    have hp : listPre ("refs/heads/".data) ('r' :: ("efs/heads/".data ++ l)) = true := by
      rw [← hcons]
      exact listPre_append_self _ _
    unfold stripRefsHeads
    rw [hlen, hcons]
    simp only [stripRHAux, hp, if_true]
    have hd : ("efs/heads/".data ++ l).drop 10 = l := by
      have h10 : ("efs/heads/" : String).data.length = 10 := rfl
      rw [← h10, List.drop_left]
    rw [hd]
    exact stripRHAux_id (l.length + 10) l (by omega) h

end DevFlow
